import Mathlib

/-!
Verification of the sampling core of `src/src/rCholWishart.c`.

The C code is embedded shallowly: C `double` arrays become flat column-major
buffers of rationals (`Buf`), the shared R random stream becomes an explicit
stream of values together with a position and a log of the requests made, the
LAPACK/BLAS primitives (`dpotrf`, `dtrmm`, `dtrtri`) are modelled from the
specification of their interfaces, and each `error(...)` call becomes an
`Except` error.  The two entry points return an `ExecTrace` recording the
result, whether the output collection had been allocated, the RNG events
(acquire/release bracket and draws) in order, the final stream position and
the caller's scale buffer after the call.
-/

namespace CholWishart

/-- A flat, column-major buffer of rationals, modelling a C array of doubles.
Entry `(i, j)` of a `p × p` matrix lives at flat index `i + j * p`. -/
def Buf : Type := ℕ → ℚ

/-- Write value `v` at flat index `k` of a buffer, modelling `a[k] = v`. -/
def Buf.set (a : Buf) (k : ℕ) (v : ℚ) : Buf := fun m => if m = k then v else a m

/-- The all-zero buffer, modelling `Calloc` / `memset(a, 0, ...)`. -/
def bufZero : Buf := fun _ => 0

/-- Events observable on the shared RNG stream: the acquire/release bracket
(`GetRNGstate` / `PutRNGstate`) and the two kinds of variate requests
(`rchisq(shape)` and `norm_rand()`). -/
inductive Event : Type where
  | openEv : Event
  | closeEv : Event
  | chisqEv : ℚ → Event
  | normalEv : Event
deriving DecidableEq

/-- The error exits of the C file, one constructor per `error(...)` message:
`invalidShape` is `"'scal' must be a square, real matrix"`,
`inconsistentDofDim` is `"inconsistent degrees of freedom and dimension"`,
`notPositiveDefinite` is `"'scal' matrix is not positive-definite"`. -/
inductive WishErr : Type where
  | invalidShape : WishErr
  | inconsistentDofDim : WishErr
  | notPositiveDefinite : WishErr
deriving DecidableEq

/-- State of the shared pseudo-random stream: the underlying stream of values,
the position of the next draw, and the log of draw events made so far. -/
structure RngSt : Type where
  stream : ℕ → ℚ
  k : ℕ
  log : List Event

/-- The primitive `rchisq(shape)`: consume the next stream value as a
chi-squared draw with the given shape. -/
def RngSt.rchisq (s : RngSt) (shape : ℚ) : ℚ × RngSt :=
  (s.stream s.k, ⟨s.stream, s.k + 1, s.log ++ [Event.chisqEv shape]⟩)

/-- The primitive `norm_rand()`: consume the next stream value as a
standard-normal draw. -/
def RngSt.normRand (s : RngSt) : ℚ × RngSt :=
  (s.stream s.k, ⟨s.stream, s.k + 1, s.log ++ [Event.normalEv]⟩)

/-- Body of the inner loop of `std_rWishart_factor`:
`ans[upper ? uind : lind] = norm_rand(); ans[upper ? lind : uind] = 0;`
with `uind = i + j * p` and `lind = j + i * p`. -/
def stdColStep (upper : Bool) (p j : ℕ) (st : Buf × RngSt) (i : ℕ) : Buf × RngSt :=
  let uind := i + j * p
  let lind := j + i * p
  let z := st.2.normRand
  ((st.1.set (if upper then uind else lind) z.1).set (if upper then lind else uind) 0, z.2)

/-- Body of the outer (column) loop of `std_rWishart_factor`:
`ans[j * pp1] = sqrt(rchisq(nu - (double) j));` followed by the inner loop
over `i < j`. -/
def stdCol (sqrtFn : ℚ → ℚ) (nu : ℚ) (upper : Bool) (p : ℕ) (st : Buf × RngSt) (j : ℕ) :
    Buf × RngSt :=
  let c := st.2.rchisq (nu - (j : ℚ))
  let a := st.1.set (j * (p + 1)) (sqrtFn c.1)
  (List.range j).foldl (stdColStep upper p j) (a, c.2)

/-- The function `std_rWishart_factor(nu, p, upper, ans)` of
`src/src/rCholWishart.c`: guard `nu < (double) p || p <= 0` (an `error`
exit), then `memset(ans, 0, p * p * sizeof(double))` — which makes the
incoming contents of `ans` irrelevant, so the zero buffer replaces it —
then the column-by-column fill.  `sqrtFn` stands for the C `sqrt` primitive
on doubles. -/
def std_rWishart_factor (sqrtFn : ℚ → ℚ) (nu : ℚ) (p : ℤ) (upper : Bool) (ans : Buf)
    (rng : RngSt) : Except WishErr (Buf × RngSt) :=
  if nu < (p : ℚ) ∨ p ≤ 0 then Except.error WishErr.inconsistentDofDim
  else
    Except.ok ((List.range p.toNat).foldl (stdCol sqrtFn nu upper p.toNat) (bufZero, rng))

/-- Modelled from the spec: the BLAS triangular-multiply primitive
`dtrmm("R", "U", "N", "N", p, p, 1.0, A, p, B, p)` (spec sections 4.4 and 6),
missing from `src/` — `B := B * A`, reading only the upper triangle of `A`
(non-unit diagonal), with `B` held in general `p × p` storage. -/
def dtrmm_RUNN (p : ℕ) (A B : Buf) : Buf := fun t =>
  if t < p * p then
    Finset.sum (Finset.range p)
      (fun k => B (t % p + k * p) * (if k ≤ t / p then A (k + (t / p) * p) else 0))
  else B t

/-- One column step of the Cholesky factorization (see `dpotrf_U`). -/
def dpotrfCol (sqrtFn : ℚ → ℚ) (p : ℕ) (st : Buf × ℕ) (j : ℕ) : Buf × ℕ :=
  if st.2 ≠ 0 then st
  else
    let A := st.1
    let ajj := A (j + j * p) -
      Finset.sum (Finset.range j) (fun k => A (k + j * p) * A (k + j * p))
    if ajj ≤ 0 then (A.set (j + j * p) ajj, j + 1)
    else
      let r := sqrtFn ajj
      let A1 := A.set (j + j * p) r
      let A2 := (List.range (p - (j + 1))).foldl
        (fun B t =>
          let c := j + 1 + t
          B.set (j + c * p)
            ((B (j + c * p) -
                Finset.sum (Finset.range j) (fun k => B (k + j * p) * B (k + c * p))) / r))
        A1
      (A2, 0)

/-- Modelled from the spec: the LAPACK Cholesky primitive
`dpotrf("U", p, A, p, info)` (spec sections 4.3 and 6), missing from `src/` —
in-place upper-triangular Cholesky factorization; `info = j + 1 > 0` signals
that the pivot of column `j` is non-positive (matrix not positive-definite),
and the remaining columns are then left unprocessed. -/
def dpotrf_U (sqrtFn : ℚ → ℚ) (p : ℕ) (A : Buf) : Buf × ℕ :=
  (List.range p).foldl (dpotrfCol sqrtFn p) (A, 0)

/-- Back-substitution for one column of the inverse of an upper-triangular
matrix: solves `A x = e_j` on rows `j, j - 1, ..., 0` (see `dtrtri_UN`). -/
def trtriCol (p : ℕ) (A : Buf) (j : ℕ) : Buf :=
  ((List.range (j + 1)).reverse).foldl
    (fun x i =>
      x.set i
        (((if i = j then (1 : ℚ) else 0) -
            Finset.sum (Finset.Ioc i j) (fun k => A (i + k * p) * x k)) / A (i + i * p)))
    bufZero

/-- Upper-triangular inverse: entry `(i, j)` with `i ≤ j` is the corresponding
entry of the inverse of the upper triangle of `A`; entries below the diagonal
and outside the `p × p` range are left untouched, as the primitive only
writes the upper triangle. -/
def invU (p : ℕ) (A : Buf) : Buf := fun t =>
  if t < p * p then
    if t % p ≤ t / p then trtriCol p A (t / p) (t % p) else A t
  else A t

/-- Modelled from the spec: the LAPACK triangular-inversion primitive
`dtrtri("U", "N", p, A, p, info)` (spec sections 4.5 and 6), missing from
`src/` — it first scans the diagonal for an exact zero, returning
`info = j + 1 > 0` with the buffer untouched if `A[j][j] = 0` (singular
matrix); otherwise it replaces the upper triangle by its inverse in place and
returns `info = 0`. -/
def dtrtri_UN (p : ℕ) (A : Buf) : Buf × ℕ :=
  match (List.range p).find? (fun j => decide (A (j + j * p) = 0)) with
  | some j => (A, j + 1)
  | none => (invU p A, 0)

/-- The `scal` argument as seen by the entry points: the host's matrix object,
carrying the `isMatrix` and `isReal` predicates, the two dimensions read from
the `dim` attribute, and the column-major entry buffer `REAL(scal)`. -/
structure ScalArg : Type where
  isMat : Bool
  isReal : Bool
  d1 : ℕ
  d2 : ℕ
  entries : Buf

/-- The shape validation of both entry points, the negation of
`!isMatrix(scal) || !isReal(scal) || dims[0] != dims[1]`. -/
def shapeOk (s : ScalArg) : Bool := s.isMat && s.isReal && (s.d1 == s.d2)

/-- The private copy `Memcpy(scCp, REAL(scal), psqr)` of the scale matrix. -/
def scalCopy (s : ScalArg) : Buf := fun t => if t < s.d1 * s.d1 then s.entries t else 0

/-- The sample count after `n = asInteger(ns); if (n <= 0) n = 1;`. -/
def coerceN (ns : ℤ) : ℕ := if ns ≤ 0 then 1 else ns.toNat

/-- The collection `alloc3DArray(REALSXP, p, p, n)` once filled: its first two
dimensions and the list of its `p × p` slices (slice `j` of the C array
starts at offset `j * p * p`; each slice is fully written by the copy loop,
so a slice is modelled by the copied buffer itself). -/
structure Out3D : Type where
  d1 : ℕ
  d2 : ℕ
  slices : List Buf

/-- Observable outcome of one call to an entry point: the result (or the error
raised), whether the output collection had been allocated by the time the
call ended, the RNG events in order (bracket operations and draws), the final
stream position, and the caller's scale buffer as left after the call. -/
structure ExecTrace : Type where
  res : Except WishErr Out3D
  allocated : Bool
  events : List Event
  kFinal : ℕ
  scalFinal : Buf

/-- The sampling loop of `rCholWishart` (`for (int j = 0; j < n; j++) ...`):
each iteration runs `std_rWishart_factor` into `tmp`, multiplies by the
Cholesky factor `scCp` with `dtrmm`, and copies `tmp` into output slot `j`.
Returns the slots (or the first error) together with the RNG state reached;
on an error the RNG state at the error point is returned, since `error(...)`
jumps out of the loop. -/
def cholSampleLoop (sqrtFn : ℚ → ℚ) (nu : ℚ) (p : ℕ) (scCp : Buf) :
    ℕ → Buf → RngSt → (Except WishErr (List Buf)) × RngSt
  | 0, _tmp, rng => (Except.ok [], rng)
  | n + 1, tmp, rng =>
    match std_rWishart_factor sqrtFn nu (p : ℤ) true tmp rng with
    | Except.error e => (Except.error e, rng)
    | Except.ok s =>
      let tmp2 := dtrmm_RUNN p scCp s.1
      match cholSampleLoop sqrtFn nu p scCp n tmp2 s.2 with
      | (Except.error e, rngE) => (Except.error e, rngE)
      | (Except.ok rest, rngF) => (Except.ok (tmp2 :: rest), rngF)

/-- The sampling loop of `rInvCholWishart`: as `cholSampleLoop`, with the
in-place `dtrtri` inversion applied to `tmp` before the copy into output slot
`j`.  The `info` result of `dtrtri` is discarded without being inspected,
exactly as in the C code. -/
def invSampleLoop (sqrtFn : ℚ → ℚ) (nu : ℚ) (p : ℕ) (scCp : Buf) :
    ℕ → Buf → RngSt → (Except WishErr (List Buf)) × RngSt
  | 0, _tmp, rng => (Except.ok [], rng)
  | n + 1, tmp, rng =>
    match std_rWishart_factor sqrtFn nu (p : ℤ) true tmp rng with
    | Except.error e => (Except.error e, rng)
    | Except.ok s =>
      let tmp2 := dtrmm_RUNN p scCp s.1
      let tmp3 := (dtrtri_UN p tmp2).1
      match invSampleLoop sqrtFn nu p scCp n tmp3 s.2 with
      | (Except.error e, rngE) => (Except.error e, rngE)
      | (Except.ok rest, rngF) => (Except.ok (tmp3 :: rest), rngF)

/-- The entry point `rCholWishart(ns, nuP, scal)` of `src/src/rCholWishart.c`,
run against the stream `σ` positioned at `k0`: shape validation, coercion of
the sample count, allocation of the output collection, private copy of the
scale matrix, `dpotrf` with its `info` check, `GetRNGstate`, the sampling
loop, and `PutRNGstate` (reached only when the loop completes, since
`error(...)` jumps out). -/
def rCholWishart (sqrtFn : ℚ → ℚ) (ns : ℤ) (nuP : ℚ) (scal : ScalArg) (σ : ℕ → ℚ)
    (k0 : ℕ) : ExecTrace :=
  if shapeOk scal then
    let n := coerceN ns
    let p := scal.d1
    let dp := dpotrf_U sqrtFn p (scalCopy scal)
    if dp.2 = 0 then
      let lp := cholSampleLoop sqrtFn nuP p dp.1 n bufZero ⟨σ, k0, []⟩
      match lp.1 with
      | Except.error e =>
        ⟨Except.error e, true, Event.openEv :: lp.2.log, lp.2.k, scal.entries⟩
      | Except.ok slices =>
        ⟨Except.ok ⟨p, p, slices⟩, true, Event.openEv :: lp.2.log ++ [Event.closeEv],
          lp.2.k, scal.entries⟩
    else ⟨Except.error WishErr.notPositiveDefinite, true, [], k0, scal.entries⟩
  else ⟨Except.error WishErr.invalidShape, false, [], k0, scal.entries⟩

/-- The entry point `rInvCholWishart(ns, nuP, scal)` of
`src/src/rCholWishart.c`: identical to `rCholWishart` except that its
sampling loop additionally inverts the combined factor with `dtrtri`. -/
def rInvCholWishart (sqrtFn : ℚ → ℚ) (ns : ℤ) (nuP : ℚ) (scal : ScalArg) (σ : ℕ → ℚ)
    (k0 : ℕ) : ExecTrace :=
  if shapeOk scal then
    let n := coerceN ns
    let p := scal.d1
    let dp := dpotrf_U sqrtFn p (scalCopy scal)
    if dp.2 = 0 then
      let lp := invSampleLoop sqrtFn nuP p dp.1 n bufZero ⟨σ, k0, []⟩
      match lp.1 with
      | Except.error e =>
        ⟨Except.error e, true, Event.openEv :: lp.2.log, lp.2.k, scal.entries⟩
      | Except.ok slices =>
        ⟨Except.ok ⟨p, p, slices⟩, true, Event.openEv :: lp.2.log ++ [Event.closeEv],
          lp.2.k, scal.entries⟩
    else ⟨Except.error WishErr.notPositiveDefinite, true, [], k0, scal.entries⟩
  else ⟨Except.error WishErr.invalidShape, false, [], k0, scal.entries⟩

/-- The error surfaced by a call, if any. -/
def resErr (t : ExecTrace) : Option WishErr :=
  match t.res with
  | Except.error e => some e
  | Except.ok _ => none

/-- Dimensions and length of the returned collection, on success. -/
def outShape (t : ExecTrace) : Option (ℕ × ℕ × ℕ) :=
  match t.res with
  | Except.error _ => none
  | Except.ok o => some (o.d1, o.d2, o.slices.length)

/-- Entry `(i, j)` of output slice `m` of a call, on success (`0` otherwise). -/
def sliceEntry (t : ExecTrace) (m i j : ℕ) : ℚ :=
  match t.res with
  | Except.error _ => 0
  | Except.ok o => (o.slices.getD m bufZero) (i + j * o.d1)

/-- Map a function over the output slices of a result. -/
def mapSlices (f : Buf → Buf) : Except WishErr Out3D → Except WishErr Out3D
  | Except.error e => Except.error e
  | Except.ok o => Except.ok ⟨o.d1, o.d2, o.slices.map f⟩

/-- Number of variates consumed by the first `j` columns of the Bartlett
factor: column `c` consumes `1 + c` draws. -/
def triNum : ℕ → ℕ
  | 0 => 0
  | j + 1 => triNum j + (j + 1)

/-- Closed form asserted by the claim for the standardized Bartlett factor, as
a function of the stream: the diagonal entry `(j, j)` is the square root of
the chi-squared draw made at stream position `k + triNum j`; the entry
`(i, j)` with `i < j` is the standard-normal draw made at position
`k + triNum j + 1 + i`; every other entry is zero. -/
def stdFactorForm (sqrtFn : ℚ → ℚ) (σ : ℕ → ℚ) (k P : ℕ) : Buf := fun t =>
  if t < P * P then
    if t % P = t / P then sqrtFn (σ (k + triNum (t / P)))
    else if t % P < t / P then σ (k + triNum (t / P) + 1 + t % P)
    else 0
  else 0

/-- The request order asserted by the claim: for each column `j` in order, one
chi-squared draw with shape `nu - j`, then `j` standard-normal draws. -/
def stdTrace (P : ℕ) (nu : ℚ) : List Event :=
  ((List.range P).map
    (fun (j : ℕ) => Event.chisqEv (nu - (j : ℚ)) :: List.replicate j Event.normalEv)).flatten

/-- The buffer contents after the first `m` columns of the Bartlett factor
have been filled (used as the outer-loop invariant). -/
def stdFilled (sqrtFn : ℚ → ℚ) (σ : ℕ → ℚ) (k P m : ℕ) : Buf := fun t =>
  if t < P * P ∧ t / P < m then
    if t % P = t / P then sqrtFn (σ (k + triNum (t / P)))
    else if t % P < t / P then σ (k + triNum (t / P) + 1 + t % P)
    else 0
  else 0

/-- The buffer writes performed by the first `m` steps of the inner loop of
column `j`, the normal draws starting at stream position `k`. -/
def innerBuf (σ : ℕ → ℚ) (P j k : ℕ) : ℕ → Buf → Buf
  | 0, a => a
  | m + 1, a => ((innerBuf σ P j k m a).set (m + j * P) (σ (k + m))).set (j + m * P) 0

/-- All entries strictly below the diagonal of the `p × p` matrix are zero. -/
def LowerZero (p : ℕ) (b : Buf) : Prop := ∀ i j : ℕ, j < i → i < p → b (i + j * p) = 0

/-- The buffer component of a successful factor call (zero buffer on error). -/
def okBuf : Except WishErr (Buf × RngSt) → Buf
  | Except.error _ => bufZero
  | Except.ok s => s.1

/-! ### Concrete fixtures used by witnesses and counterexamples -/

/-- The valid `1 × 1` identity scale matrix `[[1]]`. -/
def scalOne : ScalArg := ⟨true, true, 1, 1, fun _ => 1⟩

/-- The `1 × 1` scale matrix `[[-1]]`, square and real but not positive-definite. -/
def scalNeg : ScalArg := ⟨true, true, 1, 1, fun _ => -1⟩

/-- A `2 × 3` (non-square) real matrix argument. -/
def scalBad : ScalArg := ⟨true, true, 2, 3, fun _ => 1⟩

/-- The `0 × 0` real matrix argument. -/
def scalZero : ScalArg := ⟨true, true, 0, 0, fun _ => 0⟩

/-- The valid `2 × 2` identity scale matrix. -/
def scalId2 : ScalArg :=
  ⟨true, true, 2, 2, fun t => if t = 0 ∨ t = 3 then 1 else 0⟩

/-- The constant-one random stream. -/
def sigOne : ℕ → ℚ := fun _ => 1

/-- The constant-zero random stream (its chi-squared draws are zero). -/
def sigZero : ℕ → ℚ := fun _ => 0

/-! ### Basic lemmas about buffers and flat indices -/

theorem Buf.get_set_self (a : Buf) (k : ℕ) (v : ℚ) : a.set k v k = v := by
  simp [Buf.set]

theorem Buf.get_set_of_ne (a : Buf) {k t : ℕ} (v : ℚ) (h : t ≠ k) : a.set k v t = a t := by
  simp [Buf.set, h]

theorem idx_mod {i : ℕ} (j : ℕ) {P : ℕ} (hi : i < P) : (i + j * P) % P = i := by
  rw [Nat.add_mul_mod_self_right, Nat.mod_eq_of_lt hi]

theorem idx_div {i : ℕ} (j : ℕ) {P : ℕ} (hi : i < P) : (i + j * P) / P = j := by
  have hP : 0 < P := lt_of_le_of_lt (Nat.zero_le i) hi
  rw [Nat.add_mul_div_right _ _ hP, Nat.div_eq_of_lt hi]; omega

theorem idx_lt {i j P : ℕ} (hi : i < P) (hj : j < P) : i + j * P < P * P :=
  calc i + j * P < P + j * P := by omega
    _ = (j + 1) * P := by ring
    _ ≤ P * P := Nat.mul_le_mul_right P hj

theorem idx_inj {i j i' j' P : ℕ} (hi : i < P) (hi' : i' < P)
    (h : i + j * P = i' + j' * P) : i = i' ∧ j = j' := by
  have h1 : i = i' := by
    have h2 := congrArg (fun t => t % P) h
    simpa [idx_mod j hi, idx_mod j' hi'] using h2
  subst h1
  have hP : 0 < P := lt_of_le_of_lt (Nat.zero_le i) hi
  exact ⟨rfl, Nat.eq_of_mul_eq_mul_right hP (Nat.add_left_cancel h)⟩

theorem foldl_inv {α β : Type} {P : α → Prop} (f : α → β → α)
    (hf : ∀ a b, P a → P (f a b)) :
    ∀ (l : List β) (init : α), P init → P (l.foldl f init) := by
  intro l
  induction l with
  | nil => intro init h; simpa using h
  | cons b l ih => intro init h; exact ih (f init b) (hf init b h)

/-! ### Small facts about the embedded operations -/

theorem std_factor_error {sqrtFn : ℚ → ℚ} {nu : ℚ} {p : ℤ} {upper : Bool} {ans : Buf}
    {rng : RngSt} (h : nu < (p : ℚ) ∨ p ≤ 0) :
    std_rWishart_factor sqrtFn nu p upper ans rng = Except.error WishErr.inconsistentDofDim := by
  simp [std_rWishart_factor, h]

theorem std_factor_ans_irrel (sqrtFn : ℚ → ℚ) (nu : ℚ) (p : ℤ) (upper : Bool)
    (a a' : Buf) (rng : RngSt) :
    std_rWishart_factor sqrtFn nu p upper a rng =
      std_rWishart_factor sqrtFn nu p upper a' rng := rfl

theorem dpotrf_U_dim_zero (sqrtFn : ℚ → ℚ) (A : Buf) : dpotrf_U sqrtFn 0 A = (A, 0) := rfl

theorem coerceN_pos (ns : ℤ) : 1 ≤ coerceN ns := by
  unfold coerceN; split <;> omega

theorem coerceN_eq_max (ns : ℤ) : coerceN ns = (max 1 ns).toNat := by
  unfold coerceN; split <;> omega

theorem rangeOne : List.range 1 = [0] := rfl

theorem rangeTwo : List.range 2 = [0, 1] := rfl

/-! ### Characterization of the Bartlett-factor fill (claim C4) -/

theorem innerFold_eq (P j : ℕ) (σ : ℕ → ℚ) :
    ∀ (m : ℕ) (a : Buf) (k : ℕ) (L : List Event),
      (List.range m).foldl (stdColStep true P j) (a, ⟨σ, k, L⟩) =
        (innerBuf σ P j k m a, ⟨σ, k + m, L ++ List.replicate m Event.normalEv⟩) := by
  intro m
  induction m with
  | zero => intro a k L; simp [innerBuf]
  | succ m ih =>
    intro a k L
    rw [List.range_succ, List.foldl_append, ih]
    simp only [List.foldl_cons, List.foldl_nil, stdColStep, RngSt.normRand, innerBuf,
      if_true, Prod.mk.injEq, RngSt.mk.injEq, List.replicate_succ']
    refine ⟨trivial, trivial, by omega, List.append_assoc _ _ _⟩

theorem innerBuf_upper (σ : ℕ → ℚ) {P j : ℕ} (hj : j < P) :
    ∀ (m : ℕ) (a : Buf) (k i : ℕ), i < m → i < j →
      innerBuf σ P j k m a (i + j * P) = σ (k + i) := by
  intro m
  induction m with
  | zero => intro a k i h _; omega
  | succ m ih =>
    intro a k i him hij
    have hiP : i < P := lt_trans hij hj
    have hne1 : i + j * P ≠ j + m * P := by
      intro hcon
      obtain ⟨h1, -⟩ := idx_inj hiP hj hcon
      omega
    by_cases he : i = m
    · subst he
      simp only [innerBuf]
      rw [Buf.get_set_of_ne _ _ hne1]
      exact Buf.get_set_self _ _ _
    · have hne2 : i + j * P ≠ m + j * P := by
        intro hcon
        exact he (by omega)
      simp only [innerBuf]
      rw [Buf.get_set_of_ne _ _ hne1, Buf.get_set_of_ne _ _ hne2]
      exact ih a k i (by omega) hij

theorem innerBuf_mirror (σ : ℕ → ℚ) {P j : ℕ} (hj : j < P) :
    ∀ (m : ℕ) (a : Buf) (k i : ℕ), m ≤ j → i < m →
      innerBuf σ P j k m a (j + i * P) = 0 := by
  intro m
  induction m with
  | zero => intro a k i _ h; omega
  | succ m ih =>
    intro a k i hmj him
    by_cases he : i = m
    · subst he
      simp only [innerBuf]
      exact Buf.get_set_self _ _ _
    · have hmP : m < P := by omega
      have hne1 : j + i * P ≠ j + m * P := by
        intro hcon
        have h2 := Nat.add_left_cancel hcon
        have hP : 0 < P := lt_of_le_of_lt (Nat.zero_le j) hj
        exact he (Nat.eq_of_mul_eq_mul_right hP h2)
      have hne2 : j + i * P ≠ m + j * P := by
        intro hcon
        obtain ⟨h1, -⟩ := idx_inj hj hmP hcon
        omega
      simp only [innerBuf]
      rw [Buf.get_set_of_ne _ _ hne1, Buf.get_set_of_ne _ _ hne2]
      exact ih a k i (by omega) (by omega)

theorem innerBuf_frame (σ : ℕ → ℚ) (P j : ℕ) :
    ∀ (m : ℕ) (a : Buf) (k t : ℕ),
      (∀ i, i < m → t ≠ i + j * P ∧ t ≠ j + i * P) →
      innerBuf σ P j k m a t = a t := by
  intro m
  induction m with
  | zero => intro a k t _; rfl
  | succ m ih =>
    intro a k t h
    obtain ⟨h1, h2⟩ := h m (Nat.lt_succ_self m)
    simp only [innerBuf]
    rw [Buf.get_set_of_ne _ _ h2, Buf.get_set_of_ne _ _ h1]
    exact ih a k t (fun i hi => h i (by omega))

theorem stdCol_eq (sqrtFn : ℚ → ℚ) (nu : ℚ) (P : ℕ) (σ : ℕ → ℚ) (j k : ℕ) (a : Buf)
    (L : List Event) :
    stdCol sqrtFn nu true P (a, ⟨σ, k, L⟩) j =
      (innerBuf σ P j (k + 1) j (a.set (j * (P + 1)) (sqrtFn (σ k))),
        ⟨σ, k + 1 + j,
          (L ++ [Event.chisqEv (nu - (j : ℚ))]) ++ List.replicate j Event.normalEv⟩) := by
  rw [stdCol]
  dsimp only [RngSt.rchisq]
  exact innerFold_eq P j σ j _ (k + 1) _

theorem stdFilled_zero (sqrtFn : ℚ → ℚ) (σ : ℕ → ℚ) (k P : ℕ) :
    stdFilled sqrtFn σ k P 0 = bufZero := by
  funext t; simp [stdFilled, bufZero]

theorem stdFilled_step (sqrtFn : ℚ → ℚ) (σ : ℕ → ℚ) (k P m : ℕ) (hm : m < P) :
    innerBuf σ P m (k + triNum m + 1) m
        ((stdFilled sqrtFn σ k P m).set (m * (P + 1)) (sqrtFn (σ (k + triNum m)))) =
      stdFilled sqrtFn σ k P (m + 1) := by
  funext t
  have hP : 0 < P := by omega
  by_cases ht : t < P * P
  · have hiP : t % P < P := Nat.mod_lt t hP
    have hjP : t / P < P := (Nat.div_lt_iff_lt_mul hP).mpr ht
    have hdec : t % P + (t / P) * P = t := by
      rw [Nat.mul_comm]; exact Nat.mod_add_div t P
    by_cases hjm : t / P = m
    · rcases Nat.lt_trichotomy (t % P) m with hlt | heq | hgt
      · -- upper entry (i, m) with i < m: written by the inner loop
        have hread :
            innerBuf σ P m (k + triNum m + 1) m
                ((stdFilled sqrtFn σ k P m).set (m * (P + 1)) (sqrtFn (σ (k + triNum m)))) t =
              σ (k + triNum m + 1 + t % P) := by
          conv_lhs => rw [← hdec, hjm]
          exact innerBuf_upper σ hm m _ _ (t % P) hlt hlt
        rw [hread]
        have h1 : ¬ t % P = m := by omega
        simp [stdFilled, ht, hjm, h1, hlt]
      · -- diagonal entry (m, m): written before the inner loop, untouched by it
        have htidx : t = m * (P + 1) := by
          rw [← hdec, hjm, heq]; ring
        have hframe :
            innerBuf σ P m (k + triNum m + 1) m
                ((stdFilled sqrtFn σ k P m).set (m * (P + 1)) (sqrtFn (σ (k + triNum m)))) t =
              ((stdFilled sqrtFn σ k P m).set (m * (P + 1)) (sqrtFn (σ (k + triNum m)))) t := by
          apply innerBuf_frame
          intro i hi
          constructor
          · intro hcon
            rw [htidx] at hcon
            have : m + m * P = i + m * P := by rw [← hcon]; ring
            omega
          · intro hcon
            rw [htidx] at hcon
            have : m + m * P = m + i * P := by rw [← hcon]; ring
            have h2 := Nat.add_left_cancel this
            have := Nat.eq_of_mul_eq_mul_right hP h2
            omega
        rw [hframe, htidx, Buf.get_set_self]
        have h1 : (m * (P + 1)) % P = m := by
          have h3 : m * (P + 1) = m + m * P := by ring
          rw [h3, idx_mod m hm]
        have h2 : (m * (P + 1)) / P = m := by
          have h3 : m * (P + 1) = m + m * P := by ring
          rw [h3, idx_div m hm]
        have ht' : m * (P + 1) < P * P := htidx ▸ ht
        simp [stdFilled, ht', h1, h2]
      · -- below-diagonal entry (i, m) with i > m: untouched, zero on both sides
        have hframe :
            innerBuf σ P m (k + triNum m + 1) m
                ((stdFilled sqrtFn σ k P m).set (m * (P + 1)) (sqrtFn (σ (k + triNum m)))) t =
              ((stdFilled sqrtFn σ k P m).set (m * (P + 1)) (sqrtFn (σ (k + triNum m)))) t := by
          apply innerBuf_frame
          intro i hi
          constructor
          · intro hcon
            rw [← hdec, hjm] at hcon
            obtain ⟨h1, -⟩ := idx_inj hiP (by omega : i < P) hcon
            omega
          · intro hcon
            rw [← hdec, hjm] at hcon
            obtain ⟨h1, -⟩ := idx_inj hiP hm hcon
            omega
        have hset :
            ((stdFilled sqrtFn σ k P m).set (m * (P + 1)) (sqrtFn (σ (k + triNum m)))) t =
              stdFilled sqrtFn σ k P m t := by
          apply Buf.get_set_of_ne
          intro hcon
          have : t = m + m * P := by rw [hcon]; ring
          rw [← hdec, hjm] at this
          obtain ⟨h1, -⟩ := idx_inj hiP hm this
          omega
        rw [hframe, hset]
        have h1 : ¬ t / P < m := by omega
        have h2 : ¬ t % P = m := by omega
        have h3 : ¬ t % P < m := by omega
        simp [stdFilled, ht, hjm, h1, h2, h3]
    · by_cases hmir : t % P = m ∧ t / P < m
      · -- mirror entry (m, j) with j < m: written to zero by the inner loop
        obtain ⟨hteq, hjlt⟩ := hmir
        have hread :
            innerBuf σ P m (k + triNum m + 1) m
                ((stdFilled sqrtFn σ k P m).set (m * (P + 1)) (sqrtFn (σ (k + triNum m)))) t =
              0 := by
          conv_lhs => rw [← hdec, hteq]
          exact innerBuf_mirror σ hm m _ _ (t / P) le_rfl hjlt
        rw [hread]
        have h1 : t / P < m + 1 := by omega
        have h2 : ¬ t % P = t / P := by omega
        have h3 : ¬ t % P < t / P := by omega
        simp [stdFilled, ht, h1, h2, h3]
      · -- untouched by column m: both sides agree
        have hframe :
            innerBuf σ P m (k + triNum m + 1) m
                ((stdFilled sqrtFn σ k P m).set (m * (P + 1)) (sqrtFn (σ (k + triNum m)))) t =
              ((stdFilled sqrtFn σ k P m).set (m * (P + 1)) (sqrtFn (σ (k + triNum m)))) t := by
          apply innerBuf_frame
          intro i hi
          constructor
          · intro hcon
            rw [← hdec] at hcon
            obtain ⟨-, h2⟩ := idx_inj hiP (by omega : i < P) hcon
            omega
          · intro hcon
            rw [← hdec] at hcon
            obtain ⟨h1, h2⟩ := idx_inj hiP hm hcon
            exact hmir ⟨h1, by omega⟩
        have hset :
            ((stdFilled sqrtFn σ k P m).set (m * (P + 1)) (sqrtFn (σ (k + triNum m)))) t =
              stdFilled sqrtFn σ k P m t := by
          apply Buf.get_set_of_ne
          intro hcon
          have : t = m + m * P := by rw [hcon]; ring
          rw [← hdec] at this
          obtain ⟨-, h2⟩ := idx_inj hiP hm this
          omega
        rw [hframe, hset]
        have hiff : (t / P < m) = (t / P < m + 1) := by
          have : t / P ≠ m := hjm
          simp only [eq_iff_iff]
          omega
        simp only [stdFilled, hiff]
  · -- outside the p × p range: everything is zero on both sides
    have hframe :
        innerBuf σ P m (k + triNum m + 1) m
            ((stdFilled sqrtFn σ k P m).set (m * (P + 1)) (sqrtFn (σ (k + triNum m)))) t =
          ((stdFilled sqrtFn σ k P m).set (m * (P + 1)) (sqrtFn (σ (k + triNum m)))) t := by
      apply innerBuf_frame
      intro i hi
      constructor
      · intro hcon
        rw [hcon] at ht
        exact ht (idx_lt (by omega) hm)
      · intro hcon
        rw [hcon] at ht
        exact ht (idx_lt hm (by omega))
    have hset :
        ((stdFilled sqrtFn σ k P m).set (m * (P + 1)) (sqrtFn (σ (k + triNum m)))) t =
          stdFilled sqrtFn σ k P m t := by
      apply Buf.get_set_of_ne
      intro hcon
      rw [hcon] at ht
      have : m * (P + 1) = m + m * P := by ring
      rw [this] at ht
      exact ht (idx_lt hm hm)
    rw [hframe, hset]
    simp [stdFilled, ht]

theorem stdTrace_succ (m : ℕ) (nu : ℚ) :
    stdTrace (m + 1) nu =
      stdTrace m nu ++ Event.chisqEv (nu - (m : ℚ)) :: List.replicate m Event.normalEv := by
  simp [stdTrace, List.range_succ]

theorem stdFold_eq (sqrtFn : ℚ → ℚ) (nu : ℚ) (P : ℕ) (σ : ℕ → ℚ) (k : ℕ) (L : List Event) :
    ∀ m, m ≤ P →
      (List.range m).foldl (stdCol sqrtFn nu true P) (bufZero, ⟨σ, k, L⟩) =
        (stdFilled sqrtFn σ k P m, ⟨σ, k + triNum m, L ++ stdTrace m nu⟩) := by
  intro m
  induction m with
  | zero =>
    intro _
    simp [stdFilled_zero, triNum, stdTrace]
  | succ m ih =>
    intro hm1
    have hm : m < P := by omega
    rw [List.range_succ, List.foldl_append, ih (by omega)]
    simp only [List.foldl_cons, List.foldl_nil]
    rw [stdCol_eq, stdFilled_step sqrtFn σ k P m hm]
    have hk : k + triNum m + 1 + m = k + triNum (m + 1) := by
      simp only [triNum]; omega
    have hev :
        ((L ++ stdTrace m nu) ++ [Event.chisqEv (nu - (m : ℚ))]) ++
            List.replicate m Event.normalEv =
          L ++ stdTrace (m + 1) nu := by
      rw [stdTrace_succ, List.append_assoc, List.append_assoc, List.singleton_append]
    rw [hk, hev]

theorem std_factor_eq (sqrtFn : ℚ → ℚ) (nu : ℚ) (P : ℕ) (ans : Buf) (σ : ℕ → ℚ) (k : ℕ)
    (L : List Event) (hp : 1 ≤ P) (hnu : (P : ℚ) ≤ nu) :
    std_rWishart_factor sqrtFn nu (P : ℤ) true ans ⟨σ, k, L⟩ =
      Except.ok (stdFactorForm sqrtFn σ k P, ⟨σ, k + triNum P, L ++ stdTrace P nu⟩) := by
  have hguard : ¬(nu < ((P : ℤ) : ℚ) ∨ (P : ℤ) ≤ 0) := by
    push_neg
    refine ⟨by push_cast; exact hnu, by omega⟩
  rw [std_rWishart_factor, if_neg hguard]
  rw [Int.toNat_natCast]
  rw [stdFold_eq sqrtFn nu P σ k L P le_rfl]
  have hform : stdFilled sqrtFn σ k P P = stdFactorForm sqrtFn σ k P := by
    funext t
    by_cases ht : t < P * P
    · have hP : 0 < P := by omega
      have hjP : t / P < P := (Nat.div_lt_iff_lt_mul hP).mpr ht
      simp [stdFilled, stdFactorForm, ht, hjP]
    · simp [stdFilled, stdFactorForm, ht]
  rw [hform]

/-! ### Claim C4 -/

/-- C4: for every `p ≥ 1` and `nu ≥ p`, `std_rWishart_factor` (in the upper
orientation used by both entry points) fills the `p × p` buffer column by
column: for column `j` from `0` to `p - 1`, the diagonal entry `(j, j)`
receives the square root of one chi-squared draw with shape `nu - j`, then
each row `i` from `0` to `j - 1` in order receives one standard-normal draw
at the populated-triangle position `(i, j)` while the mirror position
`(j, i)` is set to exactly `0`.  The variates are consumed in exactly the
nested order recorded by `stdTrace` (outer loop over columns, inner loop over
rows within a column): the chi-squared draw of column `j` sits at stream
position `k + triNum j` and the normal draw for row `i` of column `j` at
`k + triNum j + 1 + i`, as the closed form `stdFactorForm` states. -/
theorem c4_bartlett_fill_and_draw_order (sqrtFn : ℚ → ℚ) (nu : ℚ) (P : ℕ) (ans : Buf)
    (σ : ℕ → ℚ) (k : ℕ) (L : List Event) (hp : 1 ≤ P) (hnu : (P : ℚ) ≤ nu) :
    std_rWishart_factor sqrtFn nu (P : ℤ) true ans ⟨σ, k, L⟩ =
      Except.ok (stdFactorForm sqrtFn σ k P, ⟨σ, k + triNum P, L ++ stdTrace P nu⟩) :=
  std_factor_eq sqrtFn nu P ans σ k L hp hnu

/-- Witness for C4 at `p = 2`, `nu = 5`, the constant-one stream. -/
theorem c4_witness :
    ((1 : ℕ) ≤ 2 ∧ ((2 : ℕ) : ℚ) ≤ 5) ∧
    std_rWishart_factor id 5 ((2 : ℕ) : ℤ) true bufZero ⟨sigOne, 0, []⟩ =
      Except.ok (stdFactorForm id sigOne 0 2, ⟨sigOne, 0 + triNum 2, [] ++ stdTrace 2 5⟩) :=
  ⟨⟨by norm_num, by norm_num⟩,
    c4_bartlett_fill_and_draw_order id 5 2 bufZero sigOne 0 [] (by norm_num) (by norm_num)⟩

/-! ### Triangularity of the pipeline stages -/

theorem stdTrace_no_bracket (P : ℕ) (nu : ℚ) :
    ∀ e ∈ stdTrace P nu, e ≠ Event.openEv ∧ e ≠ Event.closeEv := by
  intro e he
  simp only [stdTrace, List.mem_flatten, List.mem_map] at he
  obtain ⟨l, ⟨j, hj, rfl⟩, hel⟩ := he
  rcases List.mem_cons.mp hel with rfl | h
  · exact ⟨by simp, by simp⟩
  · rw [List.eq_of_mem_replicate h]
    exact ⟨by simp, by simp⟩

theorem stdFactorForm_lower (sqrtFn : ℚ → ℚ) (σ : ℕ → ℚ) (k P : ℕ) :
    LowerZero P (stdFactorForm sqrtFn σ k P) := by
  intro i j hji hiP
  have hlt : i + j * P < P * P := idx_lt hiP (by omega)
  have h1 : (i + j * P) % P = i := idx_mod j hiP
  have h2 : (i + j * P) / P = j := idx_div j hiP
  have h3 : ¬ i = j := by omega
  have h4 : ¬ i < j := by omega
  simp [stdFactorForm, hlt, h1, h2, h3, h4]

theorem dtrmm_lower (P : ℕ) (A : Buf) {B : Buf} (hB : LowerZero P B) :
    LowerZero P (dtrmm_RUNN P A B) := by
  intro i j hji hiP
  have hlt : i + j * P < P * P := idx_lt hiP (by omega)
  have h1 : (i + j * P) % P = i := idx_mod j hiP
  have h2 : (i + j * P) / P = j := idx_div j hiP
  show (if i + j * P < P * P then _ else _) = 0
  rw [if_pos hlt, h1, h2]
  apply Finset.sum_eq_zero
  intro x hx
  by_cases hxj : x ≤ j
  · rw [hB i x (by omega) hiP]
    ring
  · rw [if_neg hxj]
    ring

theorem dtrtri_lower (P : ℕ) {B : Buf} (hB : LowerZero P B) :
    LowerZero P ((dtrtri_UN P B).1) := by
  rw [dtrtri_UN]
  cases hfind : (List.range P).find? (fun j => decide (B (j + j * P) = 0)) with
  | some j => exact hB
  | none =>
    intro i j hji hiP
    have hlt : i + j * P < P * P := idx_lt hiP (by omega)
    have h1 : (i + j * P) % P = i := idx_mod j hiP
    have h2 : (i + j * P) / P = j := idx_div j hiP
    have h3 : ¬ i ≤ j := by omega
    show (if i + j * P < P * P then _ else _) = 0
    rw [if_pos hlt, h1, h2, if_neg h3]
    exact hB i j hji hiP

/-! ### Inversion of a successful factor call -/

theorem std_factor_ok_inv {sqrtFn : ℚ → ℚ} {nu : ℚ} {P : ℕ} {a : Buf} {σ : ℕ → ℚ}
    {k : ℕ} {L : List Event} {s : Buf × RngSt}
    (h : std_rWishart_factor sqrtFn nu (P : ℤ) true a ⟨σ, k, L⟩ = Except.ok s) :
    1 ≤ P ∧ (P : ℚ) ≤ nu ∧
      s = (stdFactorForm sqrtFn σ k P, ⟨σ, k + triNum P, L ++ stdTrace P nu⟩) := by
  by_cases hg : nu < ((P : ℤ) : ℚ) ∨ ((P : ℕ) : ℤ) ≤ 0
  · rw [std_factor_error hg] at h
    simp at h
  · push_neg at hg
    have hp : 1 ≤ P := by omega
    have hnu : (P : ℚ) ≤ nu := by exact_mod_cast hg.1
    rw [std_factor_eq sqrtFn nu P a σ k L hp hnu] at h
    simp only [Except.ok.injEq] at h
    exact ⟨hp, hnu, h.symm⟩

/-! ### Relation between the two sampling loops -/

theorem loop_rel (sqrtFn : ℚ → ℚ) (nu : ℚ) (P : ℕ) (scCp : Buf) :
    ∀ (n : ℕ) (tI tC : Buf) (rng : RngSt),
      invSampleLoop sqrtFn nu P scCp n tI rng =
        (Except.map (List.map (fun b => (dtrtri_UN P b).1))
            (cholSampleLoop sqrtFn nu P scCp n tC rng).1,
          (cholSampleLoop sqrtFn nu P scCp n tC rng).2) := by
  intro n
  induction n with
  | zero => intro tI tC rng; simp [invSampleLoop, cholSampleLoop, Except.map]
  | succ n ih =>
    intro tI tC rng
    simp only [invSampleLoop, cholSampleLoop]
    rw [std_factor_ans_irrel sqrtFn nu (P : ℤ) true tI tC rng]
    cases hstd : std_rWishart_factor sqrtFn nu (P : ℤ) true tC rng with
    | error e => simp [Except.map]
    | ok s =>
      simp only []
      rw [ih ((dtrtri_UN P (dtrmm_RUNN P scCp s.1)).1) (dtrmm_RUNN P scCp s.1) s.2]
      rcases hX : cholSampleLoop sqrtFn nu P scCp n (dtrmm_RUNN P scCp s.1) s.2 with ⟨r, rngR⟩
      cases r with
      | error e => simp [Except.map]
      | ok rest => simp [Except.map]

/-! ### Characterization of successful sampling loops -/

theorem cholLoop_ok (sqrtFn : ℚ → ℚ) (nu : ℚ) {P : ℕ} (scCp : Buf) (hp : 1 ≤ P)
    (hnu : (P : ℚ) ≤ nu) :
    ∀ (n : ℕ) (tmp : Buf) (σ : ℕ → ℚ) (k : ℕ) (L : List Event),
      ∃ slices kF D,
        cholSampleLoop sqrtFn nu P scCp n tmp ⟨σ, k, L⟩ =
          (Except.ok slices, ⟨σ, kF, L ++ D⟩) ∧
        slices.length = n ∧
        (∀ e ∈ D, e ≠ Event.openEv ∧ e ≠ Event.closeEv) ∧
        (∀ s ∈ slices, LowerZero P s) := by
  intro n
  induction n with
  | zero =>
    intro tmp σ k L
    exact ⟨[], k, [], by simp [cholSampleLoop], rfl, by simp, by simp⟩
  | succ n ih =>
    intro tmp σ k L
    obtain ⟨slices, kF, D, heq, hlen, hD, hlow⟩ :=
      ih (dtrmm_RUNN P scCp (stdFactorForm sqrtFn σ k P)) σ (k + triNum P) (L ++ stdTrace P nu)
    refine ⟨dtrmm_RUNN P scCp (stdFactorForm sqrtFn σ k P) :: slices, kF,
      stdTrace P nu ++ D, ?_, by simp [hlen], ?_, ?_⟩
    · simp only [cholSampleLoop]
      rw [std_factor_eq sqrtFn nu P tmp σ k L hp hnu]
      simp only []
      rw [heq]
      simp [List.append_assoc]
    · intro e he
      rcases List.mem_append.mp he with h | h
      · exact stdTrace_no_bracket P nu e h
      · exact hD e h
    · intro s hs
      rcases List.mem_cons.mp hs with rfl | h
      · exact dtrmm_lower P scCp (stdFactorForm_lower sqrtFn σ k P)
      · exact hlow s h

theorem invLoop_ok (sqrtFn : ℚ → ℚ) (nu : ℚ) {P : ℕ} (scCp : Buf) (hp : 1 ≤ P)
    (hnu : (P : ℚ) ≤ nu) :
    ∀ (n : ℕ) (tmp : Buf) (σ : ℕ → ℚ) (k : ℕ) (L : List Event),
      ∃ slices kF D,
        invSampleLoop sqrtFn nu P scCp n tmp ⟨σ, k, L⟩ =
          (Except.ok slices, ⟨σ, kF, L ++ D⟩) ∧
        slices.length = n ∧
        (∀ e ∈ D, e ≠ Event.openEv ∧ e ≠ Event.closeEv) ∧
        (∀ s ∈ slices, LowerZero P s) := by
  intro n tmp σ k L
  obtain ⟨slices, kF, D, heq, hlen, hD, hlow⟩ := cholLoop_ok sqrtFn nu scCp hp hnu n tmp σ k L
  refine ⟨slices.map (fun b => (dtrtri_UN P b).1), kF, D, ?_, by simp [hlen], hD, ?_⟩
  · rw [loop_rel sqrtFn nu P scCp n tmp tmp ⟨σ, k, L⟩, heq]
    simp [Except.map]
  · intro s hs
    rcases List.mem_map.mp hs with ⟨b, hb, rfl⟩
    exact dtrtri_lower P (hlow b hb)

/-! ### Inversion of loop outcomes -/

theorem cholLoop_error {sqrtFn : ℚ → ℚ} {nu : ℚ} {P : ℕ} {scCp : Buf} :
    ∀ {n : ℕ} {tmp : Buf} {rng rngE : RngSt} {e : WishErr},
      cholSampleLoop sqrtFn nu P scCp n tmp rng = (Except.error e, rngE) →
      rngE = rng ∧ e = WishErr.inconsistentDofDim ∧
        (nu < ((P : ℤ) : ℚ) ∨ ((P : ℕ) : ℤ) ≤ 0) := by
  intro n
  induction n with
  | zero =>
    intro tmp rng rngE e h
    simp [cholSampleLoop] at h
  | succ n ih =>
    intro tmp rng rngE e h
    simp only [cholSampleLoop] at h
    by_cases hg : nu < ((P : ℤ) : ℚ) ∨ ((P : ℕ) : ℤ) ≤ 0
    · rw [std_factor_error hg] at h
      simp only [Prod.mk.injEq, Except.error.injEq] at h
      exact ⟨h.2.symm, h.1.symm, hg⟩
    · obtain ⟨σ, k, L⟩ := rng
      push_neg at hg
      have hp : 1 ≤ P := by omega
      have hnu : (P : ℚ) ≤ nu := by exact_mod_cast hg.1
      rw [std_factor_eq sqrtFn nu P tmp σ k L hp hnu] at h
      simp only [] at h
      rcases hX : cholSampleLoop sqrtFn nu P scCp n
          (dtrmm_RUNN P scCp (stdFactorForm sqrtFn σ k P))
          ⟨σ, k + triNum P, L ++ stdTrace P nu⟩ with ⟨r, rngR⟩
      rw [hX] at h
      cases r with
      | error e' =>
        obtain ⟨-, -, hg'⟩ := ih hX
        exact absurd hg' (by push_neg; exact ⟨by exact_mod_cast hg.1, by omega⟩)
      | ok rest => simp at h

theorem invLoop_error {sqrtFn : ℚ → ℚ} {nu : ℚ} {P : ℕ} {scCp : Buf}
    {n : ℕ} {tmp : Buf} {rng rngE : RngSt} {e : WishErr}
    (h : invSampleLoop sqrtFn nu P scCp n tmp rng = (Except.error e, rngE)) :
    rngE = rng ∧ e = WishErr.inconsistentDofDim ∧
      (nu < ((P : ℤ) : ℚ) ∨ ((P : ℕ) : ℤ) ≤ 0) := by
  rw [loop_rel sqrtFn nu P scCp n tmp tmp rng] at h
  rcases hX : cholSampleLoop sqrtFn nu P scCp n tmp rng with ⟨r, rngR⟩
  rw [hX] at h
  cases r with
  | error e' =>
    simp only [Except.map, Prod.mk.injEq, Except.error.injEq] at h
    obtain ⟨h1, h2⟩ := h
    obtain ⟨ha, hb, hc⟩ := cholLoop_error hX
    exact ⟨h2 ▸ ha, h1 ▸ hb, hc⟩
  | ok rest => simp [Except.map] at h

theorem cholLoop_ok_inv {sqrtFn : ℚ → ℚ} {nu : ℚ} {P : ℕ} {scCp : Buf}
    {n : ℕ} {tmp : Buf} {σ : ℕ → ℚ} {k : ℕ} {L : List Event} {slices : List Buf}
    {rngF : RngSt}
    (h : cholSampleLoop sqrtFn nu P scCp n tmp ⟨σ, k, L⟩ = (Except.ok slices, rngF)) :
    slices.length = n ∧ (∀ s ∈ slices, LowerZero P s) ∧
      ∃ kF D, rngF = ⟨σ, kF, L ++ D⟩ ∧
        ∀ e ∈ D, e ≠ Event.openEv ∧ e ≠ Event.closeEv := by
  cases n with
  | zero =>
    simp only [cholSampleLoop, Prod.mk.injEq, Except.ok.injEq] at h
    obtain ⟨h1, h2⟩ := h
    exact ⟨by rw [← h1]; rfl, by rw [← h1]; simp, k, [], by rw [← h2]; simp, by simp⟩
  | succ n =>
    have hED := h
    simp only [cholSampleLoop] at hED
    cases hstd : std_rWishart_factor sqrtFn nu (P : ℤ) true tmp ⟨σ, k, L⟩ with
    | error e => rw [hstd] at hED; simp at hED
    | ok s =>
      obtain ⟨hp, hnu, -⟩ := std_factor_ok_inv hstd
      obtain ⟨slices', kF, D, heq, hlen, hD, hlow⟩ :=
        cholLoop_ok sqrtFn nu scCp hp hnu (n + 1) tmp σ k L
      rw [heq] at h
      simp only [Prod.mk.injEq, Except.ok.injEq] at h
      obtain ⟨h1, h2⟩ := h
      subst h1
      exact ⟨hlen, hlow, kF, D, h2.symm, hD⟩

theorem invLoop_ok_inv {sqrtFn : ℚ → ℚ} {nu : ℚ} {P : ℕ} {scCp : Buf}
    {n : ℕ} {tmp : Buf} {σ : ℕ → ℚ} {k : ℕ} {L : List Event} {slices : List Buf}
    {rngF : RngSt}
    (h : invSampleLoop sqrtFn nu P scCp n tmp ⟨σ, k, L⟩ = (Except.ok slices, rngF)) :
    slices.length = n ∧ (∀ s ∈ slices, LowerZero P s) ∧
      ∃ kF D, rngF = ⟨σ, kF, L ++ D⟩ ∧
        ∀ e ∈ D, e ≠ Event.openEv ∧ e ≠ Event.closeEv := by
  rw [loop_rel sqrtFn nu P scCp n tmp tmp ⟨σ, k, L⟩] at h
  rcases hX : cholSampleLoop sqrtFn nu P scCp n tmp ⟨σ, k, L⟩ with ⟨r, rngR⟩
  rw [hX] at h
  cases r with
  | error e => simp [Except.map] at h
  | ok rest =>
    simp only [Except.map, Prod.mk.injEq, Except.ok.injEq] at h
    obtain ⟨h1, h2⟩ := h
    obtain ⟨hlen, hlow, kF, D, hrng, hD⟩ := cholLoop_ok_inv hX
    refine ⟨by rw [← h1]; simp [hlen], ?_, kF, D, by rw [← h2, hrng], hD⟩
    intro s hs
    rw [← h1] at hs
    rcases List.mem_map.mp hs with ⟨b, hb, rfl⟩
    exact dtrtri_lower P (hlow b hb)

/-! ### Loop lemmas for the error path -/

theorem cholSampleLoop_guard_error {sqrtFn : ℚ → ℚ} {nu : ℚ} {p : ℕ} (scCp : Buf)
    {n : ℕ} (hn : 1 ≤ n) (tmp : Buf) (rng : RngSt)
    (h : nu < ((p : ℤ) : ℚ) ∨ (p : ℤ) ≤ 0) :
    cholSampleLoop sqrtFn nu p scCp n tmp rng =
      (Except.error WishErr.inconsistentDofDim, rng) := by
  obtain ⟨m, rfl⟩ : ∃ m, n = m + 1 := ⟨n - 1, by omega⟩
  simp [cholSampleLoop, std_factor_error h]

theorem invSampleLoop_guard_error {sqrtFn : ℚ → ℚ} {nu : ℚ} {p : ℕ} (scCp : Buf)
    {n : ℕ} (hn : 1 ≤ n) (tmp : Buf) (rng : RngSt)
    (h : nu < ((p : ℤ) : ℚ) ∨ (p : ℤ) ≤ 0) :
    invSampleLoop sqrtFn nu p scCp n tmp rng =
      (Except.error WishErr.inconsistentDofDim, rng) := by
  obtain ⟨m, rfl⟩ : ∃ m, n = m + 1 := ⟨n - 1, by omega⟩
  simp [invSampleLoop, std_factor_error h]

/-- Shared backbone of claims C1 and C10: under a passing shape check and a
successful Cholesky factorization, a true degrees-of-freedom guard makes both
entry points fail with `inconsistentDofDim`, after allocation and after the
stream is acquired but before any draw, and the stream is never released. -/
theorem dof_guard_traces (sqrtFn : ℚ → ℚ) (ns : ℤ) (nuP : ℚ) (scal : ScalArg)
    (σ : ℕ → ℚ) (k0 : ℕ) (hs : shapeOk scal = true)
    (hd : (dpotrf_U sqrtFn scal.d1 (scalCopy scal)).2 = 0)
    (hg : nuP < ((scal.d1 : ℤ) : ℚ) ∨ ((scal.d1 : ℕ) : ℤ) ≤ 0) :
    rCholWishart sqrtFn ns nuP scal σ k0 =
      ⟨Except.error WishErr.inconsistentDofDim, true, [Event.openEv], k0, scal.entries⟩ ∧
    rInvCholWishart sqrtFn ns nuP scal σ k0 =
      ⟨Except.error WishErr.inconsistentDofDim, true, [Event.openEv], k0, scal.entries⟩ := by
  constructor
  · rw [rCholWishart]
    simp only [hs, if_true]
    rw [cholSampleLoop_guard_error _ (coerceN_pos ns) _ _ hg]
    simp [hd]
  · rw [rInvCholWishart]
    simp only [hs, if_true]
    rw [invSampleLoop_guard_error _ (coerceN_pos ns) _ _ hg]
    simp [hd]

/-! ### Claim C1 -/

/-- C1 counterexample: with `nu = 0 < 1 = p` and the valid scale `[[1]]`, the
degrees-of-freedom failure is raised only after the output collection has been
allocated and after the RNG stream has been acquired — and with the square,
real, but non-positive-definite scale `[[-1]]` and the same `nu`, the call
fails with the positive-definiteness error instead of the
degrees-of-freedom error.  This refutes the claim that the
`InvalidDegreesOfFreedom` failure is detected before allocation and before
the stream is acquired, regardless of scale validity. -/
theorem c1_counterexample :
    (rCholWishart id 1 0 scalOne sigZero 0).allocated = true ∧
    (rCholWishart id 1 0 scalOne sigZero 0).events = [Event.openEv] ∧
    resErr (rCholWishart id 1 0 scalOne sigZero 0) = some WishErr.inconsistentDofDim ∧
    resErr (rCholWishart id 1 0 scalNeg sigZero 0) = some WishErr.notPositiveDefinite := by
  norm_num [rCholWishart, shapeOk, scalOne, scalNeg, sigZero, coerceN, dpotrf_U, dpotrfCol,
    scalCopy, cholSampleLoop, std_rWishart_factor, resErr, rangeOne]

/-- C1 (amended): if the scale matrix passes the shape check and its Cholesky
factorization succeeds, then a call to `rCholWishart` or `rInvCholWishart`
with `degreesOfFreedom < dimension` fails with the
`inconsistent degrees of freedom and dimension` error, raised inside the
first sampling iteration before any random variate is drawn — but only after
the output collection has been allocated and after the RNG stream has been
acquired, and the stream is then never released. -/
theorem c1_dof_check_inside_first_iteration (sqrtFn : ℚ → ℚ) (ns : ℤ) (nuP : ℚ)
    (scal : ScalArg) (σ : ℕ → ℚ) (k0 : ℕ) (hs : shapeOk scal = true)
    (hd : (dpotrf_U sqrtFn scal.d1 (scalCopy scal)).2 = 0)
    (hnu : nuP < (scal.d1 : ℚ)) :
    (resErr (rCholWishart sqrtFn ns nuP scal σ k0) = some WishErr.inconsistentDofDim ∧
      (rCholWishart sqrtFn ns nuP scal σ k0).allocated = true ∧
      (rCholWishart sqrtFn ns nuP scal σ k0).events = [Event.openEv]) ∧
    (resErr (rInvCholWishart sqrtFn ns nuP scal σ k0) = some WishErr.inconsistentDofDim ∧
      (rInvCholWishart sqrtFn ns nuP scal σ k0).allocated = true ∧
      (rInvCholWishart sqrtFn ns nuP scal σ k0).events = [Event.openEv]) := by
  have hg : nuP < ((scal.d1 : ℤ) : ℚ) ∨ ((scal.d1 : ℕ) : ℤ) ≤ 0 :=
    Or.inl (by exact_mod_cast hnu)
  obtain ⟨hC, hI⟩ := dof_guard_traces sqrtFn ns nuP scal σ k0 hs hd hg
  rw [hC, hI]
  simp [resErr]

/-- Witness for the amended C1 at `p = 1`, `scal = [[1]]`, `nu = 0`. -/
theorem c1_witness :
    (shapeOk scalOne = true ∧ (dpotrf_U id scalOne.d1 (scalCopy scalOne)).2 = 0 ∧
      (0 : ℚ) < (scalOne.d1 : ℚ)) ∧
    ((resErr (rCholWishart id 1 0 scalOne sigZero 0) = some WishErr.inconsistentDofDim ∧
      (rCholWishart id 1 0 scalOne sigZero 0).allocated = true ∧
      (rCholWishart id 1 0 scalOne sigZero 0).events = [Event.openEv]) ∧
    (resErr (rInvCholWishart id 1 0 scalOne sigZero 0) = some WishErr.inconsistentDofDim ∧
      (rInvCholWishart id 1 0 scalOne sigZero 0).allocated = true ∧
      (rInvCholWishart id 1 0 scalOne sigZero 0).events = [Event.openEv])) :=
  ⟨⟨by norm_num [shapeOk, scalOne],
    by norm_num [dpotrf_U, dpotrfCol, scalCopy, scalOne, rangeOne],
    by norm_num [scalOne]⟩,
    c1_dof_check_inside_first_iteration id 1 0 scalOne sigZero 0
      (by norm_num [shapeOk, scalOne])
      (by norm_num [dpotrf_U, dpotrfCol, scalCopy, scalOne, rangeOne])
      (by norm_num [scalOne])⟩

/-! ### Claim C10 -/

/-- C10: for a `0 × 0` real scale matrix, both entry points pass the shape
validation, allocate the output collection, run the Cholesky factorization
(which reports success on dimension zero), acquire the RNG stream, and only
then fail inside the first sampling iteration with the
`inconsistent degrees of freedom and dimension` error from the `p <= 0`
guard of `std_rWishart_factor`; no sample collection is returned. -/
theorem c10_zero_dimension_fails_in_loop (sqrtFn : ℚ → ℚ) (ns : ℤ) (nuP : ℚ)
    (scal : ScalArg) (σ : ℕ → ℚ) (k0 : ℕ) (hm : scal.isMat = true)
    (hr : scal.isReal = true) (h1 : scal.d1 = 0) (h2 : scal.d2 = 0) :
    ((dpotrf_U sqrtFn scal.d1 (scalCopy scal)).2 = 0 ∧
      resErr (rCholWishart sqrtFn ns nuP scal σ k0) = some WishErr.inconsistentDofDim ∧
      (rCholWishart sqrtFn ns nuP scal σ k0).allocated = true ∧
      (rCholWishart sqrtFn ns nuP scal σ k0).events = [Event.openEv]) ∧
    (resErr (rInvCholWishart sqrtFn ns nuP scal σ k0) = some WishErr.inconsistentDofDim ∧
      (rInvCholWishart sqrtFn ns nuP scal σ k0).allocated = true ∧
      (rInvCholWishart sqrtFn ns nuP scal σ k0).events = [Event.openEv]) := by
  have hs : shapeOk scal = true := by simp [shapeOk, hm, hr, h1, h2]
  have hd : (dpotrf_U sqrtFn scal.d1 (scalCopy scal)).2 = 0 := by
    rw [h1]; rfl
  have hg : nuP < ((scal.d1 : ℤ) : ℚ) ∨ ((scal.d1 : ℕ) : ℤ) ≤ 0 := by
    rw [h1]; exact Or.inr (by norm_num)
  obtain ⟨hC, hI⟩ := dof_guard_traces sqrtFn ns nuP scal σ k0 hs hd hg
  rw [hC, hI]
  simp [resErr, hd]

/-- Witness for C10 at the concrete `0 × 0` real matrix. -/
theorem c10_witness :
    (scalZero.isMat = true ∧ scalZero.isReal = true ∧ scalZero.d1 = 0 ∧ scalZero.d2 = 0) ∧
    (((dpotrf_U id scalZero.d1 (scalCopy scalZero)).2 = 0 ∧
      resErr (rCholWishart id 1 5 scalZero sigOne 0) = some WishErr.inconsistentDofDim ∧
      (rCholWishart id 1 5 scalZero sigOne 0).allocated = true ∧
      (rCholWishart id 1 5 scalZero sigOne 0).events = [Event.openEv]) ∧
    (resErr (rInvCholWishart id 1 5 scalZero sigOne 0) = some WishErr.inconsistentDofDim ∧
      (rInvCholWishart id 1 5 scalZero sigOne 0).allocated = true ∧
      (rInvCholWishart id 1 5 scalZero sigOne 0).events = [Event.openEv])) :=
  ⟨⟨rfl, rfl, rfl, rfl⟩,
    c10_zero_dimension_fails_in_loop id 1 5 scalZero sigOne 0 rfl rfl rfl rfl⟩

/-! ### Claim C8 -/

/-- C8: for every scale argument that is not a square real matrix, both entry
points fail with the `'scal' must be a square, real matrix` error before any
random variate is consumed and before the RNG stream is acquired (the event
list is empty), and before the output collection is allocated. -/
theorem c8_invalid_shape_fails_before_rng (sqrtFn : ℚ → ℚ) (ns : ℤ) (nuP : ℚ)
    (scal : ScalArg) (σ : ℕ → ℚ) (k0 : ℕ) (h : shapeOk scal = false) :
    (resErr (rCholWishart sqrtFn ns nuP scal σ k0) = some WishErr.invalidShape ∧
      (rCholWishart sqrtFn ns nuP scal σ k0).events = [] ∧
      (rCholWishart sqrtFn ns nuP scal σ k0).allocated = false) ∧
    (resErr (rInvCholWishart sqrtFn ns nuP scal σ k0) = some WishErr.invalidShape ∧
      (rInvCholWishart sqrtFn ns nuP scal σ k0).events = [] ∧
      (rInvCholWishart sqrtFn ns nuP scal σ k0).allocated = false) := by
  rw [rCholWishart, rInvCholWishart]
  simp [h, resErr]

/-- Witness for C8 at the concrete `2 × 3` (non-square) real matrix. -/
theorem c8_witness :
    shapeOk scalBad = false ∧
    ((resErr (rCholWishart id 1 5 scalBad sigOne 0) = some WishErr.invalidShape ∧
      (rCholWishart id 1 5 scalBad sigOne 0).events = [] ∧
      (rCholWishart id 1 5 scalBad sigOne 0).allocated = false) ∧
    (resErr (rInvCholWishart id 1 5 scalBad sigOne 0) = some WishErr.invalidShape ∧
      (rInvCholWishart id 1 5 scalBad sigOne 0).events = [] ∧
      (rInvCholWishart id 1 5 scalBad sigOne 0).allocated = false)) :=
  ⟨rfl, c8_invalid_shape_fails_before_rng id 1 5 scalBad sigOne 0 rfl⟩

/-! ### Claim C9 -/

/-- C9: both entry points factor a private copy of the scale matrix (the
`Memcpy` into `scCp` precedes the in-place `dpotrf`), so the caller's scale
buffer is left unchanged by the whole call, on every path, in both normal and
inverse mode. -/
theorem c9_scale_matrix_not_mutated (sqrtFn : ℚ → ℚ) (ns : ℤ) (nuP : ℚ)
    (scal : ScalArg) (σ : ℕ → ℚ) (k0 : ℕ) :
    (rCholWishart sqrtFn ns nuP scal σ k0).scalFinal = scal.entries ∧
    (rInvCholWishart sqrtFn ns nuP scal σ k0).scalFinal = scal.entries := by
  constructor
  · rw [rCholWishart]
    split
    · dsimp only
      split
      · split <;> rfl
      · rfl
    · rfl
  · rw [rInvCholWishart]
    split
    · dsimp only
      split
      · split <;> rfl
      · rfl
    · rfl

/-! ### Entry-point characterization on success -/

theorem rCholWishart_ok (sqrtFn : ℚ → ℚ) (ns : ℤ) (nuP : ℚ) (scal : ScalArg)
    (σ : ℕ → ℚ) (k0 : ℕ) (hs : shapeOk scal = true)
    (hd : (dpotrf_U sqrtFn scal.d1 (scalCopy scal)).2 = 0)
    (hp : 1 ≤ scal.d1) (hnu : (scal.d1 : ℚ) ≤ nuP) :
    ∃ slices kF D,
      rCholWishart sqrtFn ns nuP scal σ k0 =
        ⟨Except.ok ⟨scal.d1, scal.d1, slices⟩, true,
          Event.openEv :: D ++ [Event.closeEv], kF, scal.entries⟩ ∧
      slices.length = coerceN ns ∧
      (∀ e ∈ D, e ≠ Event.openEv ∧ e ≠ Event.closeEv) ∧
      (∀ s ∈ slices, LowerZero scal.d1 s) := by
  obtain ⟨slices, kF, D, heq, hlen, hD, hlow⟩ :=
    cholLoop_ok sqrtFn nuP (dpotrf_U sqrtFn scal.d1 (scalCopy scal)).1 hp hnu
      (coerceN ns) bufZero σ k0 []
  refine ⟨slices, kF, D, ?_, hlen, hD, hlow⟩
  rw [rCholWishart]
  simp only [hs, if_true]
  rw [heq]
  simp [hd]

theorem rInvCholWishart_ok (sqrtFn : ℚ → ℚ) (ns : ℤ) (nuP : ℚ) (scal : ScalArg)
    (σ : ℕ → ℚ) (k0 : ℕ) (hs : shapeOk scal = true)
    (hd : (dpotrf_U sqrtFn scal.d1 (scalCopy scal)).2 = 0)
    (hp : 1 ≤ scal.d1) (hnu : (scal.d1 : ℚ) ≤ nuP) :
    ∃ slices kF D,
      rInvCholWishart sqrtFn ns nuP scal σ k0 =
        ⟨Except.ok ⟨scal.d1, scal.d1, slices⟩, true,
          Event.openEv :: D ++ [Event.closeEv], kF, scal.entries⟩ ∧
      slices.length = coerceN ns ∧
      (∀ e ∈ D, e ≠ Event.openEv ∧ e ≠ Event.closeEv) ∧
      (∀ s ∈ slices, LowerZero scal.d1 s) := by
  obtain ⟨slices, kF, D, heq, hlen, hD, hlow⟩ :=
    invLoop_ok sqrtFn nuP (dpotrf_U sqrtFn scal.d1 (scalCopy scal)).1 hp hnu
      (coerceN ns) bufZero σ k0 []
  refine ⟨slices, kF, D, ?_, hlen, hD, hlow⟩
  rw [rInvCholWishart]
  simp only [hs, if_true]
  rw [heq]
  simp [hd]

theorem rCholWishart_res_ok {sqrtFn : ℚ → ℚ} {ns : ℤ} {nuP : ℚ} {scal : ScalArg}
    {σ : ℕ → ℚ} {k0 : ℕ} {o : Out3D}
    (h : (rCholWishart sqrtFn ns nuP scal σ k0).res = Except.ok o) :
    o.d1 = scal.d1 ∧ o.d2 = scal.d1 ∧ ∀ s ∈ o.slices, LowerZero scal.d1 s := by
  rw [rCholWishart] at h
  cases hs : shapeOk scal with
  | false => rw [hs] at h; simp at h
  | true =>
    rw [hs] at h
    simp only [if_true] at h
    by_cases hd : (dpotrf_U sqrtFn scal.d1 (scalCopy scal)).2 = 0
    · rw [if_pos hd] at h
      rcases hX : cholSampleLoop sqrtFn nuP scal.d1 (dpotrf_U sqrtFn scal.d1 (scalCopy scal)).1
          (coerceN ns) bufZero ⟨σ, k0, []⟩ with ⟨r, rngR⟩
      rw [hX] at h
      cases r with
      | error e => simp at h
      | ok slices =>
        simp only [Except.ok.injEq] at h
        obtain ⟨-, hlow, -⟩ := cholLoop_ok_inv hX
        rw [← h]
        exact ⟨rfl, rfl, hlow⟩
    · rw [if_neg hd] at h
      simp at h

theorem rInvCholWishart_res_ok {sqrtFn : ℚ → ℚ} {ns : ℤ} {nuP : ℚ} {scal : ScalArg}
    {σ : ℕ → ℚ} {k0 : ℕ} {o : Out3D}
    (h : (rInvCholWishart sqrtFn ns nuP scal σ k0).res = Except.ok o) :
    o.d1 = scal.d1 ∧ o.d2 = scal.d1 ∧ ∀ s ∈ o.slices, LowerZero scal.d1 s := by
  rw [rInvCholWishart] at h
  cases hs : shapeOk scal with
  | false => rw [hs] at h; simp at h
  | true =>
    rw [hs] at h
    simp only [if_true] at h
    by_cases hd : (dpotrf_U sqrtFn scal.d1 (scalCopy scal)).2 = 0
    · rw [if_pos hd] at h
      rcases hX : invSampleLoop sqrtFn nuP scal.d1 (dpotrf_U sqrtFn scal.d1 (scalCopy scal)).1
          (coerceN ns) bufZero ⟨σ, k0, []⟩ with ⟨r, rngR⟩
      rw [hX] at h
      cases r with
      | error e => simp at h
      | ok slices =>
        simp only [Except.ok.injEq] at h
        obtain ⟨-, hlow, -⟩ := invLoop_ok_inv hX
        rw [← h]
        exact ⟨rfl, rfl, hlow⟩
    · rw [if_neg hd] at h
      simp at h

/-! ### Claim C5 -/

/-- C5: for the same inputs and the same initial RNG stream state, the two
entry points make identical draws (same event sequence, same final stream
position), agree on allocation and on the caller's buffer, and the result of
`rInvCholWishart` is exactly the result of `rCholWishart` with the
triangular-inversion primitive `dtrtri` applied to the output slice at each
draw index — the two pipelines differ only by the one in-place triangular
inversion applied per sample in inverse mode. -/
theorem c5_inverse_mode_is_chol_then_dtrtri (sqrtFn : ℚ → ℚ) (ns : ℤ) (nuP : ℚ)
    (scal : ScalArg) (σ : ℕ → ℚ) (k0 : ℕ) :
    (rInvCholWishart sqrtFn ns nuP scal σ k0).res =
      mapSlices (fun b => (dtrtri_UN scal.d1 b).1)
        (rCholWishart sqrtFn ns nuP scal σ k0).res ∧
    (rInvCholWishart sqrtFn ns nuP scal σ k0).events =
      (rCholWishart sqrtFn ns nuP scal σ k0).events ∧
    (rInvCholWishart sqrtFn ns nuP scal σ k0).allocated =
      (rCholWishart sqrtFn ns nuP scal σ k0).allocated ∧
    (rInvCholWishart sqrtFn ns nuP scal σ k0).kFinal =
      (rCholWishart sqrtFn ns nuP scal σ k0).kFinal ∧
    (rInvCholWishart sqrtFn ns nuP scal σ k0).scalFinal =
      (rCholWishart sqrtFn ns nuP scal σ k0).scalFinal := by
  rw [rCholWishart, rInvCholWishart]
  cases hs : shapeOk scal with
  | false => simp [mapSlices]
  | true =>
    simp only [if_true]
    by_cases hd : (dpotrf_U sqrtFn scal.d1 (scalCopy scal)).2 = 0
    · rw [if_pos hd, if_pos hd,
        loop_rel sqrtFn nuP scal.d1 (dpotrf_U sqrtFn scal.d1 (scalCopy scal)).1
          (coerceN ns) bufZero bufZero ⟨σ, k0, []⟩]
      rcases hX : cholSampleLoop sqrtFn nuP scal.d1
          (dpotrf_U sqrtFn scal.d1 (scalCopy scal)).1 (coerceN ns) bufZero
          ⟨σ, k0, []⟩ with ⟨r, rngR⟩
      cases r with
      | error e => simp [Except.map, mapSlices]
      | ok rest => simp [Except.map, mapSlices]
    · rw [if_neg hd, if_neg hd]
      simp [mapSlices]

/-! ### Claim C6 -/

/-- C6: every entry strictly below the diagonal of every output matrix of
`rCholWishart` and `rInvCholWishart` is exactly `0` (the buffer is zeroed by
`memset` and only the upper triangle and mirror zeros are ever written, the
triangular multiply and the triangular inversion both preserve the zero
lower triangle), for every one of the output slots. -/
theorem c6_outputs_strictly_lower_zero (sqrtFn : ℚ → ℚ) (ns : ℤ) (nuP : ℚ)
    (scal : ScalArg) (σ : ℕ → ℚ) (k0 : ℕ) (m i j : ℕ)
    (hji : j < i) (hiP : i < scal.d1) :
    sliceEntry (rCholWishart sqrtFn ns nuP scal σ k0) m i j = 0 ∧
    sliceEntry (rInvCholWishart sqrtFn ns nuP scal σ k0) m i j = 0 := by
  constructor
  · rw [sliceEntry]
    cases hres : (rCholWishart sqrtFn ns nuP scal σ k0).res with
    | error e => rfl
    | ok o =>
      dsimp only
      obtain ⟨hd1, -, hlow⟩ := rCholWishart_res_ok hres
      rw [hd1]
      by_cases hm : m < o.slices.length
      · have hmem : o.slices.getD m bufZero ∈ o.slices := by
          rw [List.getD_eq_getElem o.slices bufZero hm]
          exact List.getElem_mem hm
        exact hlow _ hmem i j hji hiP
      · rw [List.getD_eq_default o.slices bufZero (by omega)]
        rfl
  · rw [sliceEntry]
    cases hres : (rInvCholWishart sqrtFn ns nuP scal σ k0).res with
    | error e => rfl
    | ok o =>
      dsimp only
      obtain ⟨hd1, -, hlow⟩ := rInvCholWishart_res_ok hres
      rw [hd1]
      by_cases hm : m < o.slices.length
      · have hmem : o.slices.getD m bufZero ∈ o.slices := by
          rw [List.getD_eq_getElem o.slices bufZero hm]
          exact List.getElem_mem hm
        exact hlow _ hmem i j hji hiP
      · rw [List.getD_eq_default o.slices bufZero (by omega)]
        rfl

/-- Witness for C6 at the `2 × 2` identity scale, entry `(1, 0)` of slot 0. -/
theorem c6_witness :
    ((0 : ℕ) < 1 ∧ (1 : ℕ) < scalId2.d1) ∧
    (sliceEntry (rCholWishart id 1 5 scalId2 sigOne 0) 0 1 0 = 0 ∧
      sliceEntry (rInvCholWishart id 1 5 scalId2 sigOne 0) 0 1 0 = 0) :=
  ⟨⟨by norm_num, by norm_num [scalId2]⟩,
    c6_outputs_strictly_lower_zero id 1 5 scalId2 sigOne 0 0 1 0 (by norm_num)
      (by norm_num [scalId2])⟩

/-! ### Claim C7 -/

/-- C7: a sample count of `0` or negative is coerced up to `1` rather than
rejected, and (for inputs passing validation and factorization, with
`p ≥ 1` and `nu ≥ p`) the returned collection holds exactly `max 1 ns`
matrices, each of dimension `p × p`. -/
theorem c7_sample_count_coerced (sqrtFn : ℚ → ℚ) (ns : ℤ) (nuP : ℚ) (scal : ScalArg)
    (σ : ℕ → ℚ) (k0 : ℕ) (hs : shapeOk scal = true)
    (hd : (dpotrf_U sqrtFn scal.d1 (scalCopy scal)).2 = 0)
    (hp : 1 ≤ scal.d1) (hnu : (scal.d1 : ℚ) ≤ nuP) :
    outShape (rCholWishart sqrtFn ns nuP scal σ k0) =
      some (scal.d1, scal.d1, (max 1 ns).toNat) ∧
    outShape (rInvCholWishart sqrtFn ns nuP scal σ k0) =
      some (scal.d1, scal.d1, (max 1 ns).toNat) := by
  obtain ⟨slices, kF, D, heq, hlen, -, -⟩ :=
    rCholWishart_ok sqrtFn ns nuP scal σ k0 hs hd hp hnu
  obtain ⟨slices', kF', D', heq', hlen', -, -⟩ :=
    rInvCholWishart_ok sqrtFn ns nuP scal σ k0 hs hd hp hnu
  rw [heq, heq']
  simp [outShape, hlen, hlen', coerceN_eq_max]

/-- Witness for C7 at `ns = 0` (coerced to one sample) and the `[[1]]` scale. -/
theorem c7_witness :
    (shapeOk scalOne = true ∧ (dpotrf_U id scalOne.d1 (scalCopy scalOne)).2 = 0 ∧
      1 ≤ scalOne.d1 ∧ (scalOne.d1 : ℚ) ≤ 1) ∧
    (outShape (rCholWishart id 0 1 scalOne sigOne 0) =
        some (scalOne.d1, scalOne.d1, (max 1 (0 : ℤ)).toNat) ∧
      outShape (rInvCholWishart id 0 1 scalOne sigOne 0) =
        some (scalOne.d1, scalOne.d1, (max 1 (0 : ℤ)).toNat)) :=
  ⟨⟨rfl, by norm_num [dpotrf_U, dpotrfCol, scalCopy, scalOne, rangeOne],
    by norm_num [scalOne], by norm_num [scalOne]⟩,
    c7_sample_count_coerced id 0 1 scalOne sigOne 0 rfl
      (by norm_num [dpotrf_U, dpotrfCol, scalCopy, scalOne, rangeOne])
      (by norm_num [scalOne]) (by norm_num [scalOne])⟩

/-! ### Claim C3 -/

/-- C3 counterexample: at `nu = 0 < 1 = p` with the valid scale `[[1]]`, the
first sampling iteration raises an error after `GetRNGstate`; the recorded
events are exactly one `open` with no `close`, so the bracket is not closed
on this error exit, contrary to the claim that it closes exactly once on
every exit path. -/
theorem c3_counterexample :
    resErr (rCholWishart id 2 0 scalOne sigZero 0) = some WishErr.inconsistentDofDim ∧
    (rCholWishart id 2 0 scalOne sigZero 0).events = [Event.openEv] := by
  norm_num [rCholWishart, shapeOk, scalOne, sigZero, coerceN, dpotrf_U, dpotrfCol,
    scalCopy, cholSampleLoop, std_rWishart_factor, resErr, rangeOne]

/-- C3 (amended): on every successful execution the RNG bracket is opened
exactly once before the first draw and closed exactly once after the last
draw (the event list is `open`, then draws only, then `close`); on a
validation or factorization failure (`invalidShape` or
`notPositiveDefinite`, the only errors raised outside the sampling loop) the
stream is never acquired; and on an error raised during a sampling iteration
(`inconsistentDofDim`, the only error a sampling iteration can raise) the
stream has been acquired and is never released — the events are then exactly
the one `open` with no `close`. -/
theorem c3_bracket_closed_only_on_success (sqrtFn : ℚ → ℚ) (ns : ℤ) (nuP : ℚ)
    (scal : ScalArg) (σ : ℕ → ℚ) (k0 : ℕ) :
    ((resErr (rCholWishart sqrtFn ns nuP scal σ k0) = none →
      ∃ D, (rCholWishart sqrtFn ns nuP scal σ k0).events =
          Event.openEv :: D ++ [Event.closeEv] ∧
        ∀ e ∈ D, e ≠ Event.openEv ∧ e ≠ Event.closeEv) ∧
      (resErr (rCholWishart sqrtFn ns nuP scal σ k0) = some WishErr.invalidShape ∨
          resErr (rCholWishart sqrtFn ns nuP scal σ k0) =
            some WishErr.notPositiveDefinite →
        (rCholWishart sqrtFn ns nuP scal σ k0).events = []) ∧
      (resErr (rCholWishart sqrtFn ns nuP scal σ k0) =
          some WishErr.inconsistentDofDim →
        (rCholWishart sqrtFn ns nuP scal σ k0).events = [Event.openEv])) ∧
    ((resErr (rInvCholWishart sqrtFn ns nuP scal σ k0) = none →
      ∃ D, (rInvCholWishart sqrtFn ns nuP scal σ k0).events =
          Event.openEv :: D ++ [Event.closeEv] ∧
        ∀ e ∈ D, e ≠ Event.openEv ∧ e ≠ Event.closeEv) ∧
      (resErr (rInvCholWishart sqrtFn ns nuP scal σ k0) = some WishErr.invalidShape ∨
          resErr (rInvCholWishart sqrtFn ns nuP scal σ k0) =
            some WishErr.notPositiveDefinite →
        (rInvCholWishart sqrtFn ns nuP scal σ k0).events = []) ∧
      (resErr (rInvCholWishart sqrtFn ns nuP scal σ k0) =
          some WishErr.inconsistentDofDim →
        (rInvCholWishart sqrtFn ns nuP scal σ k0).events = [Event.openEv])) := by
  constructor
  · rw [rCholWishart]
    cases hs : shapeOk scal with
    | false => refine ⟨?_, ?_, ?_⟩ <;> simp [resErr]
    | true =>
      simp only [if_true]
      by_cases hd : (dpotrf_U sqrtFn scal.d1 (scalCopy scal)).2 = 0
      · rw [if_pos hd]
        rcases hX : cholSampleLoop sqrtFn nuP scal.d1
            (dpotrf_U sqrtFn scal.d1 (scalCopy scal)).1 (coerceN ns) bufZero
            ⟨σ, k0, []⟩ with ⟨r, rngR⟩
        cases r with
        | error e =>
          obtain ⟨hrng, he, -⟩ := cholLoop_error hX
          subst hrng
          subst he
          refine ⟨?_, ?_, ?_⟩ <;> simp [resErr]
        | ok slices =>
          obtain ⟨-, -, kF, D, hrng, hD⟩ := cholLoop_ok_inv hX
          subst hrng
          refine ⟨fun _ => ⟨D, by simp, hD⟩, ?_, ?_⟩ <;> simp [resErr]
      · rw [if_neg hd]
        refine ⟨?_, ?_, ?_⟩ <;> simp [resErr]
  · rw [rInvCholWishart]
    cases hs : shapeOk scal with
    | false => refine ⟨?_, ?_, ?_⟩ <;> simp [resErr]
    | true =>
      simp only [if_true]
      by_cases hd : (dpotrf_U sqrtFn scal.d1 (scalCopy scal)).2 = 0
      · rw [if_pos hd]
        rcases hX : invSampleLoop sqrtFn nuP scal.d1
            (dpotrf_U sqrtFn scal.d1 (scalCopy scal)).1 (coerceN ns) bufZero
            ⟨σ, k0, []⟩ with ⟨r, rngR⟩
        cases r with
        | error e =>
          obtain ⟨hrng, he, -⟩ := invLoop_error hX
          subst hrng
          subst he
          refine ⟨?_, ?_, ?_⟩ <;> simp [resErr]
        | ok slices =>
          obtain ⟨-, -, kF, D, hrng, hD⟩ := invLoop_ok_inv hX
          subst hrng
          refine ⟨fun _ => ⟨D, by simp, hD⟩, ?_, ?_⟩ <;> simp [resErr]
      · rw [if_neg hd]
        refine ⟨?_, ?_, ?_⟩ <;> simp [resErr]

/-- Witness for the amended C3: a successful call at `p = 1`, `nu = 2` whose
events carry a properly closed bracket; a factorization failure on `[[-1]]`
that never acquires the stream; and a mid-loop degrees-of-freedom failure at
`nu = 0 < 1 = p` that acquires the stream once and never releases it. -/
theorem c3_witness :
    (resErr (rCholWishart id 1 2 scalOne sigOne 0) = none ∧
      ∃ D, (rCholWishart id 1 2 scalOne sigOne 0).events =
          Event.openEv :: D ++ [Event.closeEv] ∧
        ∀ e ∈ D, e ≠ Event.openEv ∧ e ≠ Event.closeEv) ∧
    (resErr (rCholWishart id 1 2 scalNeg sigOne 0) =
        some WishErr.notPositiveDefinite ∧
      (rCholWishart id 1 2 scalNeg sigOne 0).events = []) ∧
    (resErr (rCholWishart id 2 0 scalOne sigZero 0) =
        some WishErr.inconsistentDofDim ∧
      (rCholWishart id 2 0 scalOne sigZero 0).events = [Event.openEv]) :=
  ⟨⟨by norm_num [rCholWishart, shapeOk, scalOne, sigOne, coerceN, dpotrf_U, dpotrfCol,
      scalCopy, cholSampleLoop, std_rWishart_factor, stdCol, RngSt.rchisq, resErr, rangeOne],
    (c3_bracket_closed_only_on_success id 1 2 scalOne sigOne 0).1.1
      (by norm_num [rCholWishart, shapeOk, scalOne, sigOne, coerceN, dpotrf_U, dpotrfCol,
        scalCopy, cholSampleLoop, std_rWishart_factor, stdCol, RngSt.rchisq, resErr,
        rangeOne])⟩,
    ⟨by norm_num [rCholWishart, shapeOk, scalNeg, coerceN, dpotrf_U, dpotrfCol,
        scalCopy, resErr, rangeOne],
      (c3_bracket_closed_only_on_success id 1 2 scalNeg sigOne 0).1.2.1
        (Or.inr (by norm_num [rCholWishart, shapeOk, scalNeg, coerceN, dpotrf_U,
          dpotrfCol, scalCopy, resErr, rangeOne]))⟩,
    ⟨by norm_num [rCholWishart, shapeOk, scalOne, sigZero, coerceN, dpotrf_U, dpotrfCol,
        scalCopy, cholSampleLoop, std_rWishart_factor, resErr, rangeOne],
      (c3_bracket_closed_only_on_success id 2 0 scalOne sigZero 0).1.2.2
        (by norm_num [rCholWishart, shapeOk, scalOne, sigZero, coerceN, dpotrf_U,
          dpotrfCol, scalCopy, cholSampleLoop, std_rWishart_factor, resErr, rangeOne])⟩⟩

/-! ### Claim C2 -/

/-- C2 evaluated at the failing input: with scale `[[1]]`, `nu = 1`, one
sample, and a stream whose chi-squared draw is `0`, the combined factor of
the first draw is the singular `1 × 1` zero matrix and the triangular
inversion primitive signals `info = 1`; yet `rInvCholWishart` never inspects
`info` (there is no error path for it in the code), returns success with a
full output collection, and the slot holds the uninverted singular factor
(its diagonal entry is `0`, which no true inverse could have). -/
theorem c2_singular_info_ignored :
    (dtrtri_UN 1 (dtrmm_RUNN 1 (dpotrf_U id 1 (scalCopy scalOne)).1
        (okBuf (std_rWishart_factor id 1 ((1 : ℕ) : ℤ) true bufZero
          ⟨sigZero, 0, []⟩)))).2 = 1 ∧
    resErr (rInvCholWishart id 1 1 scalOne sigZero 0) = none ∧
    outShape (rInvCholWishart id 1 1 scalOne sigZero 0) = some (1, 1, 1) ∧
    sliceEntry (rInvCholWishart id 1 1 scalOne sigZero 0) 0 0 0 = 0 := by
  refine ⟨?_, ?_, ?_, ?_⟩ <;>
    norm_num [rInvCholWishart, shapeOk, scalOne, sigZero, coerceN, dpotrf_U, dpotrfCol,
      scalCopy, invSampleLoop, std_rWishart_factor, stdCol, RngSt.rchisq, okBuf,
      dtrmm_RUNN, dtrtri_UN, invU, Buf.set, bufZero, resErr, outShape, sliceEntry,
      rangeOne]

end CholWishart
